import Mathlib

/-!
Verification of the tpsearch local-search engine.

The development shallowly embeds the repository's Python code:
* `SearchProblem` is the searchable-state capability set (`get_neighbors`,
  `evaluate`, `is_goal`) that `hillclimbing.py` declares as an abstract base
  class and that both problem fixtures implement.
* The hill-climbing entry points (`steepest_ascent`, `first_choice`,
  `random_restart`) and the annealing entry points (`anneal`,
  `random_restart_anneal`) are translated from `hillclimbing.py` and
  `simannealing.py`.  Python's global random source is abstracted into
  explicit oracle parameters (a shuffle oracle, a neighbor-pick oracle, an
  acceptance oracle, a fresh-state generator), so every theorem quantifies
  over all possible resolutions of the program's randomness.  Loops without
  a syntactic bound (the annealing cooling loop) take an explicit fuel
  parameter and return `Option`, `none` meaning the fuel ran out before the
  loop's own exit condition fired.
* The two fixtures (`eightpuzzle.py` / `eightqueen.py` and their
  hill-climbing subclasses) are embedded as `EightPuzzleState` and
  `QueenState` with their evaluation, goal, move and neighbor functions.

Scores are integers: both fixtures' `evaluate` returns `100 - d` for a
natural-number defect `d`, so every score the engine manipulates is an
integer.
-/

/-- The abstract capability set of a searchable state, from the
`HillClimbingProblem` abstract base class in `hillclimbing.py`. -/
structure SearchProblem (σ : Type) where
  get_neighbors : σ → List σ
  evaluate : σ → Int
  is_goal : σ → Bool

/-- Python's `max(xs, key=f)` on a nonempty list `x :: xs`: the first
element attaining the maximal key is kept (later elements replace the
accumulator only on a strictly greater key). -/
def pyMaxBy {σ : Type} (f : σ → Int) (x : σ) (xs : List σ) : σ :=
  xs.foldl (fun acc n => if f n > f acc then n else acc) x

/-- Loop body of `HillClimbing.steepest_ascent`, with the remaining
iteration count of `for _ in range(max_steps)` as first argument. -/
def steepestAscentAux {σ : Type} (P : SearchProblem σ) :
    Nat → σ → List Int → σ × List Int
  | 0, current, scores => (current, scores)
  | n + 1, current, scores =>
    match P.get_neighbors current with
    | [] => (current, scores)
    | x :: xs =>
      let best_neighbor := pyMaxBy P.evaluate x xs
      let best_score := P.evaluate best_neighbor
      if best_score ≤ P.evaluate current then (current, scores)
      else if P.is_goal best_neighbor then (best_neighbor, scores ++ [best_score])
      else steepestAscentAux P n best_neighbor (scores ++ [best_score])

/-- `HillClimbing.steepest_ascent` from `hillclimbing.py` (the Python
default for `max_steps` is 1000). -/
def steepest_ascent {σ : Type} (P : SearchProblem σ) (initial_state : σ)
    (max_steps : Nat) : σ × List Int :=
  steepestAscentAux P max_steps initial_state [P.evaluate initial_state]

/-- Loop body of `HillClimbing.first_choice`.  The oracle `shuffle` stands
for `random.shuffle`: at step `k` the neighbor list is replaced by
`shuffle k` of it before the scan (quantifying over all oracles covers
every permutation the Python code can draw). -/
def firstChoiceAux {σ : Type} (P : SearchProblem σ)
    (shuffle : Nat → List σ → List σ) :
    Nat → Nat → σ → List Int → σ × List Int
  | 0, _, current, scores => (current, scores)
  | n + 1, k, current, scores =>
    match P.get_neighbors current with
    | [] => (current, scores)
    | x :: xs =>
      match (shuffle k (x :: xs)).find? (fun m => P.evaluate current ≤ P.evaluate m) with
      | none => (current, scores)
      | some neighbor =>
        if P.is_goal neighbor then (neighbor, scores ++ [P.evaluate neighbor])
        else firstChoiceAux P shuffle n (k + 1) neighbor (scores ++ [P.evaluate neighbor])

/-- `HillClimbing.first_choice` from `hillclimbing.py` (the Python default
for `max_steps` is 1000). -/
def first_choice {σ : Type} (P : SearchProblem σ)
    (shuffle : Nat → List σ → List σ) (initial_state : σ)
    (max_steps : Nat) : σ × List Int :=
  firstChoiceAux P shuffle max_steps 0 initial_state [P.evaluate initial_state]

/-- Loop body of `HillClimbing.random_restart`.  The oracle `gen` stands
for `generate_random_state`: restart `k` continues from `gen k`.  Each
attempt calls `steepest_ascent` with its Python default `max_steps = 1000`,
exactly as the source does. -/
def randomRestartAux {σ : Type} (P : SearchProblem σ) (gen : Nat → σ) :
    Nat → Nat → σ → σ → Int → List Int → σ × List Int
  | 0, _, _, best_state, _, all_scores => (best_state, all_scores)
  | n + 1, k, init, best_state, best_score, all_scores =>
    let r := steepest_ascent P init 1000
    let current_score := P.evaluate r.1
    let best' := if current_score > best_score then (r.1, current_score)
      else (best_state, best_score)
    let all' := all_scores ++ r.2
    if P.is_goal r.1 then (best'.1, all')
    else randomRestartAux P gen n (k + 1) (gen k) best'.1 best'.2 all'

/-- `HillClimbing.random_restart` from `hillclimbing.py` (the Python
default for `max_restarts` is 1000).  Note that `all_scores` is seeded with
the initial state's score before the first attempt runs. -/
def random_restart {σ : Type} (P : SearchProblem σ) (gen : Nat → σ)
    (initial_state : σ) (max_restarts : Nat) : σ × List Int :=
  randomRestartAux P gen max_restarts 0 initial_state initial_state
    (P.evaluate initial_state) [P.evaluate initial_state]

/-- The score traces of the successive steepest-ascent attempts performed
by `random_restart`, in order.  This follows the specification's phrase
about the trace of `random_restart` and exists to be compared with the
trace the source actually accumulates. -/
def restartAttemptTraces {σ : Type} (P : SearchProblem σ) (gen : Nat → σ) :
    Nat → Nat → σ → List (List Int)
  | 0, _, _ => []
  | n + 1, k, init =>
    let r := steepest_ascent P init 1000
    if P.is_goal r.1 then [r.2]
    else r.2 :: restartAttemptTraces P gen n (k + 1) (gen k)

/-- A trivial searchable problem (one dead-end state), used to exercise the
engine on concrete runs. -/
def trivProblem : SearchProblem Unit where
  get_neighbors _ := []
  evaluate _ := 0
  is_goal _ := false

/-- The local variables of `SimulatedAnnealing.anneal`: the current state
and its score, the separately tracked best-ever accepted state and its
score, the accumulated score trace, and a step counter `k` indexing the
random oracles. -/
structure AnnealSt (σ : Type) where
  current : σ
  currentScore : Int
  best : σ
  bestScore : Int
  scores : List Int
  k : Nat
deriving DecidableEq

/-- The initial `AnnealSt` built by the prologue of
`SimulatedAnnealing.anneal`. -/
def initAnnealSt {σ : Type} (P : SearchProblem σ) (initial_state : σ) : AnnealSt σ :=
  { current := initial_state
    currentScore := P.evaluate initial_state
    best := initial_state
    bestScore := P.evaluate initial_state
    scores := [P.evaluate initial_state]
    k := 0 }

/-- One iteration body of the inner loop of `SimulatedAnnealing.anneal`,
for a nonempty neighbor list `x :: xs`: pick a neighbor, apply the
acceptance test, and on acceptance append the new score and update the
tracked best.  `pick` abstracts `random.choice` (reduced modulo the
neighbor count) and `accept` abstracts the Metropolis draw
`random.random() < math.exp(delta / temp)` made when `delta ≤ 0`; both are
indexed by the step counter `st.k`. -/
def annealStep {σ : Type} (P : SearchProblem σ) (pick : Nat → Nat)
    (accept : Nat → Bool) (st : AnnealSt σ) (x : σ) (xs : List σ) : AnnealSt σ :=
  let ns := x :: xs
  let next_state := ns.getD (pick st.k % ns.length) x
  let next_score := P.evaluate next_state
  let delta := next_score - st.currentScore
  if delta > 0 ∨ accept st.k = true then
    { current := next_state
      currentScore := next_score
      best := if next_score > st.bestScore then next_state else st.best
      bestScore := if next_score > st.bestScore then next_score else st.bestScore
      scores := st.scores ++ [next_score]
      k := st.k + 1 }
  else { st with k := st.k + 1 }

/-- The inner `for _ in range(steps_per_temp)` loop of
`SimulatedAnnealing.anneal`.  The returned Bool is true exactly when the
loop hit the `return current, scores` statement guarded by
`current.is_goal()`; returning with `false` means the inner loop ended (its
range was exhausted or the neighbor list was empty) and cooling continues. -/
def annealInner {σ : Type} (P : SearchProblem σ) (pick : Nat → Nat)
    (accept : Nat → Bool) : Nat → AnnealSt σ → AnnealSt σ × Bool
  | 0, st => (st, false)
  | m + 1, st =>
    match P.get_neighbors st.current with
    | [] => (st, false)
    | x :: xs =>
      let st' := annealStep P pick accept st x xs
      if P.is_goal st'.current then (st', true)
      else annealInner P pick accept m st'

/-- The outer `while temp > min_temp` cooling loop of
`SimulatedAnnealing.anneal`, with explicit fuel; `none` means the fuel ran
out while the temperature was still above `min_temp`.  The returned Bool
records whether the run ended through the mid-run goal return. -/
def annealOuter {σ : Type} (P : SearchProblem σ) (pick : Nat → Nat)
    (accept : Nat → Bool) (cooling_rate min_temp : ℚ) (steps_per_temp : Nat) :
    Nat → ℚ → AnnealSt σ → Option (AnnealSt σ × Bool)
  | 0, temp, st => if temp > min_temp then none else some (st, false)
  | fuel + 1, temp, st =>
    if temp > min_temp then
      let r := annealInner P pick accept steps_per_temp st
      if r.2 then some (r.1, true)
      else annealOuter P pick accept cooling_rate min_temp steps_per_temp fuel
        (temp * cooling_rate) r.1
    else some (st, false)

/-- The full annealing run: final internal variables plus the goal/exhausted
exit flag. -/
def annealRun {σ : Type} (P : SearchProblem σ) (pick : Nat → Nat)
    (accept : Nat → Bool) (initial_state : σ)
    (initial_temp cooling_rate min_temp : ℚ) (steps_per_temp fuel : Nat) :
    Option (AnnealSt σ × Bool) :=
  annealOuter P pick accept cooling_rate min_temp steps_per_temp fuel
    initial_temp (initAnnealSt P initial_state)

/-- `SimulatedAnnealing.anneal` from `simannealing.py` (Python defaults:
`initial_temp = 100.0`, `cooling_rate = 0.95`, `min_temp = 0.01`,
`steps_per_temp = 100`): the goal exit returns `current, scores`, the
cooled-out exit returns `best_state, scores`. -/
def anneal {σ : Type} (P : SearchProblem σ) (pick : Nat → Nat)
    (accept : Nat → Bool) (initial_state : σ)
    (initial_temp cooling_rate min_temp : ℚ) (steps_per_temp fuel : Nat) :
    Option (σ × List Int) :=
  (annealRun P pick accept initial_state initial_temp cooling_rate min_temp
      steps_per_temp fuel).map
    (fun r => if r.2 then (r.1.current, r.1.scores) else (r.1.best, r.1.scores))

/-- Loop body of `SimulatedAnnealing.random_restart_anneal`; the oracle
families `picks` and `accepts` give each restart its own random streams and
`gen` draws the fresh initial state between restarts.  A `none` from an
inner `anneal` (fuel exhaustion) propagates. -/
def randomRestartAnnealAux {σ : Type} (P : SearchProblem σ)
    (picks : Nat → Nat → Nat) (accepts : Nat → Nat → Bool) (gen : Nat → σ)
    (initial_temp cooling_rate min_temp : ℚ) (steps_per_temp fuel : Nat) :
    Nat → Nat → σ → σ → Int → List Int → Option (σ × List Int)
  | 0, _, _, best_state, _, all_scores => some (best_state, all_scores)
  | n + 1, k, init, best_state, best_score, all_scores =>
    match anneal P (picks k) (accepts k) init initial_temp cooling_rate
        min_temp steps_per_temp fuel with
    | none => none
    | some r =>
      let current_score := P.evaluate r.1
      let all' := all_scores ++ r.2
      let best' := if current_score > best_score then (r.1, current_score)
        else (best_state, best_score)
      if P.is_goal r.1 then some (best'.1, all')
      else randomRestartAnnealAux P picks accepts gen initial_temp cooling_rate
        min_temp steps_per_temp fuel n (k + 1) (gen k) best'.1 best'.2 all'

/-- `SimulatedAnnealing.random_restart_anneal` from `simannealing.py` (the
Python default for `num_restarts` is 10).  Note that `all_scores` starts
empty here, unlike in `random_restart`. -/
def random_restart_anneal {σ : Type} (P : SearchProblem σ)
    (picks : Nat → Nat → Nat) (accepts : Nat → Nat → Bool) (gen : Nat → σ)
    (initial_state : σ) (num_restarts : Nat)
    (initial_temp cooling_rate min_temp : ℚ) (steps_per_temp fuel : Nat) :
    Option (σ × List Int) :=
  randomRestartAnnealAux P picks accepts gen initial_temp cooling_rate min_temp
    steps_per_temp fuel num_restarts 0 initial_state initial_state
    (P.evaluate initial_state) []

/-- The invariant of the annealing walk: the tracked best score is the
score of the tracked best state, it occurs in the trace, and it dominates
every trace entry. -/
def AnnealInv {σ : Type} (P : SearchProblem σ) (st : AnnealSt σ) : Prop :=
  P.evaluate st.best = st.bestScore ∧ st.bestScore ∈ st.scores ∧
    ∀ x ∈ st.scores, x ≤ st.bestScore

/-- The tile-puzzle state from `eightpuzzle.py`: a board (list of rows of
integers, 0 the blank) together with the cached blank position computed by
`_find_blank` in the constructor. -/
structure EightPuzzleState where
  board : List (List Int)
  blank_pos : Nat × Nat
deriving DecidableEq

/-- `EightPuzzleState._find_blank`: the first cell equal to 0 in row-major
order over the 3×3 grid, `none` when the scan finds no blank (the source
raises `ValueError` there).  Out-of-shape cells read as the non-blank
default 1 (the source would raise an `IndexError` on them). -/
def findBlank (board : List (List Int)) : Option (Nat × Nat) :=
  (List.range 3).findSome? (fun i =>
    ((List.range 3).find? (fun j => (board.getD i []).getD j 1 == 0)).map
      (fun j => (i, j)))

/-- The `EightPuzzleState` constructor: fails (with `none`, embedding the
raised `ValueError`) when the board has no blank cell. -/
def EightPuzzleState.mk? (board : List (List Int)) : Option EightPuzzleState :=
  (findBlank board).map (fun p => { board := board, blank_pos := p })

def dirUp : String := "上"

def dirDown : String := "下"

def dirLeft : String := "左"

def dirRight : String := "右"

/-- `EightPuzzleState.get_possible_moves`: the legal blank slides, in the
source's order up, down, left, right. -/
def EightPuzzleState.get_possible_moves (s : EightPuzzleState) : List String :=
  (if s.blank_pos.1 > 0 then [dirUp] else []) ++
  (if s.blank_pos.1 < 2 then [dirDown] else []) ++
  (if s.blank_pos.2 > 0 then [dirLeft] else []) ++
  (if s.blank_pos.2 < 2 then [dirRight] else [])

/-- The direction-to-offset dictionary of `EightPuzzleState.move`; `none`
embeds the `direction not in moves` early return. -/
def dirDelta (direction : String) : Option (Int × Int) :=
  if direction = dirUp then some (-1, 0)
  else if direction = dirDown then some (1, 0)
  else if direction = dirLeft then some (0, -1)
  else if direction = dirRight then some (0, 1)
  else none

/-- Write value `v` at row `i`, column `j` of a board (the source mutates a
deep copy; here the copy is the returned value). -/
def setCell (board : List (List Int)) (i j : Nat) (v : Int) : List (List Int) :=
  board.set i ((board.getD i []).set j v)

/-- `EightPuzzleState.move`: slide the blank one step in `direction`,
returning `none` on an unknown direction or an out-of-bounds target; the
new state is built by the constructor on the swapped board, exactly as the
source's `return EightPuzzleState(new_board)`. -/
def EightPuzzleState.move (s : EightPuzzleState) (direction : String) :
    Option EightPuzzleState :=
  match dirDelta direction with
  | none => none
  | some d =>
    let nx : Int := (s.blank_pos.1 : Int) + d.1
    let ny : Int := (s.blank_pos.2 : Int) + d.2
    if 0 ≤ nx ∧ nx < 3 ∧ 0 ≤ ny ∧ ny < 3 then
      let v := (s.board.getD nx.toNat []).getD ny.toNat 0
      let b1 := setCell s.board s.blank_pos.1 s.blank_pos.2 v
      let b2 := setCell b1 nx.toNat ny.toNat 0
      EightPuzzleState.mk? b2
    else none

/-- The Manhattan-distance accumulation of
`EightPuzzleHillClimbing.evaluate`: for every non-blank cell, the distance
to every goal cell holding the same value is added (the source's quadruple
loop has no break, so duplicated goal values each contribute). -/
def manhattanDistance (board goal : List (List Int)) : Nat :=
  ∑ i in Finset.range 3, ∑ j in Finset.range 3,
    (if (board.getD i []).getD j 0 ≠ 0 then
      ∑ gi in Finset.range 3, ∑ gj in Finset.range 3,
        (if (goal.getD gi []).getD gj 0 = (board.getD i []).getD j 0 then
          ((i : Int) - gi).natAbs + ((j : Int) - gj).natAbs
        else 0)
    else 0)

/-- `EightPuzzleHillClimbing.evaluate`: 100 minus the Manhattan distance to
the attached goal board. -/
def epEvaluate (board goal : List (List Int)) : Int :=
  100 - (manhattanDistance board goal : Int)

/-- `EightPuzzleHillClimbing.is_goal`: true iff `evaluate()` equals 100. -/
def epIsGoal (board goal : List (List Int)) : Bool :=
  epEvaluate board goal == 100

/-- The `EightPuzzleHillClimbing` fixture as a `SearchProblem`, carrying
its per-instance goal board: neighbors keep the moves whose result is not
`None`. -/
def epProblem (goal : List (List Int)) : SearchProblem EightPuzzleState where
  get_neighbors s := s.get_possible_moves.filterMap (fun m => s.move m)
  evaluate s := epEvaluate s.board goal
  is_goal s := epIsGoal s.board goal

/-- The queens state from `eightqueen.py`: board size and the row-indexed
list of queen columns (−1 for unset). -/
structure QueenState where
  size : Nat
  queen_cols : List Int
deriving DecidableEq

/-- The `QueenState` constructor: all rows unset (`queen_cols = [-1] * size`). -/
def QueenState.init (size : Nat) : QueenState :=
  { size := size, queen_cols := List.replicate size (-1) }

/-- `QueenHillClimbing.get_neighbors`: for every row and every column other
than the row's current one, the state obtained by moving that row's queen
there on a copy of `queen_cols`. -/
def QueenState.get_neighbors (s : QueenState) : List QueenState :=
  (List.range s.size).flatMap (fun row =>
    ((List.range s.size).filter
        (fun (new_col : Nat) => ((new_col : Int) ≠ s.queen_cols.getD row (-1)))).map
      (fun (new_col : Nat) =>
        { size := s.size, queen_cols := s.queen_cols.set row ((new_col : Nat) : Int) }))

/-- The conflict count from `QueenHillClimbing.evaluate`: the number of row
pairs `i < j` sharing a column or a diagonal. -/
def QueenState.conflicts (s : QueenState) : Nat :=
  ∑ i in Finset.range s.size,
    ((Finset.Ico (i + 1) s.size).filter (fun j =>
      s.queen_cols.getD i (-1) = s.queen_cols.getD j (-1) ∨
        ((i : Int) - j).natAbs =
          (s.queen_cols.getD i (-1) - s.queen_cols.getD j (-1)).natAbs)).card

/-- `QueenHillClimbing.evaluate`: 100 minus the number of conflicting
pairs. -/
def QueenState.evaluate (s : QueenState) : Int :=
  100 - (s.conflicts : Int)

/-- `QueenHillClimbing.is_goal`: true iff `evaluate()` equals 100. -/
def QueenState.is_goal (s : QueenState) : Bool :=
  s.evaluate == 100

/-- The `QueenHillClimbing` fixture as a `SearchProblem`. -/
def queenProblem : SearchProblem QueenState where
  get_neighbors := QueenState.get_neighbors
  evaluate := QueenState.evaluate
  is_goal := QueenState.is_goal

theorem steepestAscentAux_trace {σ : Type} (P : SearchProblem σ) :
    ∀ (n : Nat) (c : σ) (sc : List Int), sc ≠ [] →
      sc.getLast? = some (P.evaluate c) → List.Chain' (· ≤ ·) sc →
      ∃ t, (steepestAscentAux P n c sc).2 = sc ++ t ∧
        List.Chain' (· ≤ ·) (steepestAscentAux P n c sc).2 := by
  intro n
  induction n with
  | zero =>
    intro c sc _ _ hch
    exact ⟨[], by simp [steepestAscentAux], by simpa [steepestAscentAux] using hch⟩
  | succ n ih =>
    intro c sc hne hlast hch
    rw [steepestAscentAux]
    cases hng : P.get_neighbors c with
    | nil => exact ⟨[], by simp, by simpa using hch⟩
    | cons x xs =>
      simp only
      by_cases hle : P.evaluate (pyMaxBy P.evaluate x xs) ≤ P.evaluate c
      · rw [if_pos hle]
        exact ⟨[], by simp, by simpa using hch⟩
      · rw [if_neg hle]
        have hlt : P.evaluate c < P.evaluate (pyMaxBy P.evaluate x xs) :=
          lt_of_not_le hle
        have hch' : List.Chain' (· ≤ ·) (sc ++ [P.evaluate (pyMaxBy P.evaluate x xs)]) := by
          rw [List.chain'_append]
          refine ⟨hch, List.chain'_singleton _, ?_⟩
          intro a ha b hb
          rw [hlast] at ha
          simp only [List.head?_cons, Option.mem_def, Option.some.injEq] at ha hb
          subst ha; subst hb
          exact le_of_lt hlt
        by_cases hg : P.is_goal (pyMaxBy P.evaluate x xs)
        · rw [if_pos hg]
          exact ⟨[P.evaluate (pyMaxBy P.evaluate x xs)], rfl, hch'⟩
        · rw [if_neg hg]
          have hlast' : (sc ++ [P.evaluate (pyMaxBy P.evaluate x xs)]).getLast? =
              some (P.evaluate (pyMaxBy P.evaluate x xs)) := by
            simp [List.getLast?_append]
          obtain ⟨t, ht, hcht⟩ := ih (pyMaxBy P.evaluate x xs)
            (sc ++ [P.evaluate (pyMaxBy P.evaluate x xs)]) (by simp) hlast' hch'
          exact ⟨P.evaluate (pyMaxBy P.evaluate x xs) :: t, by simpa using ht, hcht⟩

/-- C3: `steepest_ascent` moves only to the single best neighbor and only
on strict improvement; its score trace starts with the initial state's
score and is monotonically non-decreasing. -/
theorem steepest_ascent_trace_monotone {σ : Type} (P : SearchProblem σ)
    (initial_state : σ) (max_steps : Nat) :
    (steepest_ascent P initial_state max_steps).2.head? =
      some (P.evaluate initial_state) ∧
    List.Chain' (· ≤ ·) (steepest_ascent P initial_state max_steps).2 := by
  obtain ⟨t, ht, hch⟩ := steepestAscentAux_trace P max_steps initial_state
    [P.evaluate initial_state] (by simp) (by simp) (List.chain'_singleton _)
  rw [steepest_ascent]
  rw [ht] at hch ⊢
  exact ⟨by simp, hch⟩

theorem firstChoiceAux_trace {σ : Type} (P : SearchProblem σ)
    (shuffle : Nat → List σ → List σ) :
    ∀ (n k : Nat) (c : σ) (sc : List Int), sc ≠ [] →
      sc.getLast? = some (P.evaluate c) → List.Chain' (· ≤ ·) sc →
      ∃ t, (firstChoiceAux P shuffle n k c sc).2 = sc ++ t ∧
        List.Chain' (· ≤ ·) (firstChoiceAux P shuffle n k c sc).2 := by
  intro n
  induction n with
  | zero =>
    intro k c sc _ _ hch
    exact ⟨[], by simp [firstChoiceAux], by simpa [firstChoiceAux] using hch⟩
  | succ n ih =>
    intro k c sc hne hlast hch
    rw [firstChoiceAux]
    cases hng : P.get_neighbors c with
    | nil => exact ⟨[], by simp, by simpa using hch⟩
    | cons x xs =>
      simp only
      cases hf : (shuffle k (x :: xs)).find? (fun m => P.evaluate c ≤ P.evaluate m) with
      | none => exact ⟨[], by simp, by simpa using hch⟩
      | some neighbor =>
        simp only
        have hge : P.evaluate c ≤ P.evaluate neighbor := by
          have := List.find?_some hf
          exact of_decide_eq_true this
        have hch' : List.Chain' (· ≤ ·) (sc ++ [P.evaluate neighbor]) := by
          rw [List.chain'_append]
          refine ⟨hch, List.chain'_singleton _, ?_⟩
          intro a ha b hb
          rw [hlast] at ha
          simp only [List.head?_cons, Option.mem_def, Option.some.injEq] at ha hb
          subst ha; subst hb
          exact hge
        by_cases hg : P.is_goal neighbor
        · rw [if_pos hg]
          exact ⟨[P.evaluate neighbor], rfl, hch'⟩
        · rw [if_neg hg]
          have hlast' : (sc ++ [P.evaluate neighbor]).getLast? =
              some (P.evaluate neighbor) := by
            simp [List.getLast?_append]
          obtain ⟨t, ht, hcht⟩ := ih (k + 1) neighbor
            (sc ++ [P.evaluate neighbor]) (by simp) hlast' hch'
          exact ⟨P.evaluate neighbor :: t, by simpa using ht, hcht⟩

/-- C4: `first_choice` accepts the first neighbor of the shuffled scan whose
score is at least the current score (for any shuffle oracle, hence any
random permutation); its score trace starts with the initial state's score
and is non-decreasing. -/
theorem first_choice_trace_monotone {σ : Type} (P : SearchProblem σ)
    (shuffle : Nat → List σ → List σ) (initial_state : σ) (max_steps : Nat) :
    (first_choice P shuffle initial_state max_steps).2.head? =
      some (P.evaluate initial_state) ∧
    List.Chain' (· ≤ ·) (first_choice P shuffle initial_state max_steps).2 := by
  obtain ⟨t, ht, hch⟩ := firstChoiceAux_trace P shuffle max_steps 0 initial_state
    [P.evaluate initial_state] (by simp) (by simp) (List.chain'_singleton _)
  rw [first_choice]
  rw [ht] at hch ⊢
  exact ⟨by simp, hch⟩

theorem randomRestartAux_trace {σ : Type} (P : SearchProblem σ) (gen : Nat → σ) :
    ∀ (n k : Nat) (init best_state : σ) (best_score : Int) (all_scores : List Int),
      (randomRestartAux P gen n k init best_state best_score all_scores).2 =
        all_scores ++ (restartAttemptTraces P gen n k init).flatten := by
  intro n
  induction n with
  | zero => intro k init bs bsc all; simp [randomRestartAux, restartAttemptTraces]
  | succ n ih =>
    intro k init bs bsc all
    rw [randomRestartAux, restartAttemptTraces]
    by_cases hg : P.is_goal (steepest_ascent P init 1000).1
    · simp [hg]
    · simp only [hg, Bool.false_eq_true, if_false, ih]
      simp [List.append_assoc]

/-- C2 (amended): the trace of `random_restart` is the initial state's
score followed by the concatenation of the traces of the successive
steepest-ascent attempts (the source seeds the trace with the initial score
before the first attempt, so the trace is one entry longer than the bare
concatenation). -/
theorem random_restart_trace_concat {σ : Type} (P : SearchProblem σ)
    (gen : Nat → σ) (initial_state : σ) (max_restarts : Nat) :
    (random_restart P gen initial_state max_restarts).2 =
      P.evaluate initial_state ::
        (restartAttemptTraces P gen max_restarts 0 initial_state).flatten := by
  rw [random_restart, randomRestartAux_trace]
  simp

/-- C2 (counterexample): on the one-state dead-end problem with a single
restart, the trace of `random_restart` is `[0, 0]`, which is not the bare
concatenation `[0]` of the attempt traces, contradicting the claim that the
trace has no entries added beyond the concatenation. -/
theorem random_restart_trace_concat_cex :
    (random_restart trivProblem (fun _ => ()) () 1).2 ≠
      (restartAttemptTraces trivProblem (fun _ => ()) 1 0 ()).flatten := by
  decide


theorem annealStep_scores {σ : Type} (P : SearchProblem σ) (pick : Nat → Nat)
    (accept : Nat → Bool) (st : AnnealSt σ) (x : σ) (xs : List σ) :
    ∃ t, (annealStep P pick accept st x xs).scores = st.scores ++ t := by
  rw [annealStep]
  split
  · exact ⟨[P.evaluate ((x :: xs).getD (pick st.k % (x :: xs).length) x)], rfl⟩
  · exact ⟨[], by simp⟩

theorem annealStep_inv {σ : Type} (P : SearchProblem σ) (pick : Nat → Nat)
    (accept : Nat → Bool) (st : AnnealSt σ) (x : σ) (xs : List σ)
    (h : AnnealInv P st) :
    AnnealInv P (annealStep P pick accept st x xs) := by
  obtain ⟨h1, h2, h3⟩ := h
  rw [annealStep]
  generalize (x :: xs).getD (pick st.k % (x :: xs).length) x = nb
  split
  · simp only [AnnealInv]
    by_cases hgt : st.bestScore < P.evaluate nb
    · refine ⟨?_, ?_, ?_⟩
      · rw [if_pos hgt, if_pos hgt]
      · rw [if_pos hgt]
        exact List.mem_append_right _ (List.mem_singleton_self _)
      · intro y hy
        rw [if_pos hgt]
        rcases List.mem_append.1 hy with hy | hy
        · exact le_of_lt (lt_of_le_of_lt (h3 y hy) hgt)
        · simp only [List.mem_singleton] at hy
          simp [hy]
    · refine ⟨?_, ?_, ?_⟩
      · rw [if_neg hgt, if_neg hgt]
        exact h1
      · rw [if_neg hgt]
        exact List.mem_append_left _ h2
      · intro y hy
        rw [if_neg hgt]
        rcases List.mem_append.1 hy with hy | hy
        · exact h3 y hy
        · simp only [List.mem_singleton] at hy
          subst hy
          exact le_of_not_lt hgt
  · exact ⟨h1, h2, h3⟩

theorem annealInner_spec {σ : Type} (P : SearchProblem σ) (pick : Nat → Nat)
    (accept : Nat → Bool) :
    ∀ (m : Nat) (st : AnnealSt σ),
      (AnnealInv P st → AnnealInv P (annealInner P pick accept m st).1) ∧
      ((annealInner P pick accept m st).2 = true →
        P.is_goal (annealInner P pick accept m st).1.current = true) ∧
      ∃ t, (annealInner P pick accept m st).1.scores = st.scores ++ t := by
  intro m
  induction m with
  | zero =>
    intro st
    exact ⟨fun h => by simpa [annealInner] using h, by simp [annealInner],
      ⟨[], by simp [annealInner]⟩⟩
  | succ m ih =>
    intro st
    rw [annealInner]
    cases hng : P.get_neighbors st.current with
    | nil => exact ⟨fun h => by simpa using h, by simp, ⟨[], by simp⟩⟩
    | cons x xs =>
      simp only
      by_cases hg : P.is_goal (annealStep P pick accept st x xs).current
      · rw [if_pos hg]
        exact ⟨fun h => annealStep_inv P pick accept st x xs h, fun _ => hg,
          annealStep_scores P pick accept st x xs⟩
      · rw [if_neg hg]
        obtain ⟨ihInv, ihGoal, t2, ih2⟩ := ih (annealStep P pick accept st x xs)
        refine ⟨fun h => ihInv (annealStep_inv P pick accept st x xs h), ihGoal, ?_⟩
        obtain ⟨t1, ht1⟩ := annealStep_scores P pick accept st x xs
        exact ⟨t1 ++ t2, by rw [ih2, ht1, List.append_assoc]⟩

theorem annealOuter_spec {σ : Type} (P : SearchProblem σ) (pick : Nat → Nat)
    (accept : Nat → Bool) (cooling_rate min_temp : ℚ) (steps_per_temp : Nat) :
    ∀ (fuel : Nat) (temp : ℚ) (st st' : AnnealSt σ) (b : Bool),
      annealOuter P pick accept cooling_rate min_temp steps_per_temp fuel temp st =
        some (st', b) →
      (AnnealInv P st → AnnealInv P st') ∧
      (b = true → P.is_goal st'.current = true) ∧
      ∃ t, st'.scores = st.scores ++ t := by
  intro fuel
  induction fuel with
  | zero =>
    intro temp st st' b h
    rw [annealOuter] at h
    split at h
    · exact absurd h (by simp)
    · simp only [Option.some.injEq, Prod.mk.injEq] at h
      obtain ⟨rfl, rfl⟩ := h
      exact ⟨fun hI => hI, by simp, ⟨[], by simp⟩⟩
  | succ fuel ih =>
    intro temp st st' b h
    rw [annealOuter] at h
    split at h
    · by_cases hg : (annealInner P pick accept steps_per_temp st).2
      · rw [if_pos hg] at h
        simp only [Option.some.injEq, Prod.mk.injEq] at h
        obtain ⟨rfl, rfl⟩ := h
        obtain ⟨hInv, hGoal, hs⟩ := annealInner_spec P pick accept steps_per_temp st
        exact ⟨hInv, fun _ => hGoal hg, hs⟩
      · rw [if_neg hg] at h
        obtain ⟨hInv1, _, t1, ht1⟩ := annealInner_spec P pick accept steps_per_temp st
        obtain ⟨hInv2, hGoal2, t2, ht2⟩ := ih (temp * cooling_rate)
          (annealInner P pick accept steps_per_temp st).1 st' b h
        exact ⟨fun hI => hInv2 (hInv1 hI), hGoal2,
          ⟨t1 ++ t2, by rw [ht2, ht1, List.append_assoc]⟩⟩
    · simp only [Option.some.injEq, Prod.mk.injEq] at h
      obtain ⟨rfl, rfl⟩ := h
      exact ⟨fun hI => hI, by simp, ⟨[], by simp⟩⟩

theorem initAnnealSt_inv {σ : Type} (P : SearchProblem σ) (initial_state : σ) :
    AnnealInv P (initAnnealSt P initial_state) := by
  refine ⟨rfl, List.mem_singleton_self _, ?_⟩
  intro y hy
  simp only [initAnnealSt, List.mem_singleton] at hy
  simp [initAnnealSt, hy]

/-- C1: `anneal` returns asymmetrically.  If the run ends through the
mid-run goal return (`goalFlag = true`), the returned state is the final
`current`, a goal state, with the trace accumulated so far; if the
temperature instead falls to `min_temp` or below (`goalFlag = false`), the
returned state is the separately tracked best-ever accepted state: its
score is attained in the trace and dominates every score of the walk, so it
need not be the walk's final current state. -/
theorem anneal_asymmetric_return {σ : Type} (P : SearchProblem σ)
    (pick : Nat → Nat) (accept : Nat → Bool) (initial_state : σ)
    (initial_temp cooling_rate min_temp : ℚ) (steps_per_temp fuel : Nat)
    (st : AnnealSt σ) (goalFlag : Bool)
    (h : annealRun P pick accept initial_state initial_temp cooling_rate
      min_temp steps_per_temp fuel = some (st, goalFlag)) :
    (goalFlag = true →
      anneal P pick accept initial_state initial_temp cooling_rate min_temp
          steps_per_temp fuel = some (st.current, st.scores) ∧
        P.is_goal st.current = true) ∧
    (goalFlag = false →
      anneal P pick accept initial_state initial_temp cooling_rate min_temp
          steps_per_temp fuel = some (st.best, st.scores) ∧
        P.evaluate st.best = st.bestScore ∧
        st.bestScore ∈ st.scores ∧
        ∀ x ∈ st.scores, x ≤ st.bestScore) := by
  obtain ⟨hInv, hGoal, _⟩ := annealOuter_spec P pick accept cooling_rate min_temp
    steps_per_temp fuel initial_temp (initAnnealSt P initial_state) st goalFlag h
  have hI := hInv (initAnnealSt_inv P initial_state)
  constructor
  · intro hb
    subst hb
    refine ⟨?_, hGoal rfl⟩
    rw [anneal, h]
    simp
  · intro hb
    subst hb
    refine ⟨?_, hI.1, hI.2.1, hI.2.2⟩
    rw [anneal, h]
    simp

theorem anneal_asymmetric_return_witness :
    anneal trivProblem (fun _ => 0) (fun _ => false) () 0 0 0 1 1 =
      some ((initAnnealSt trivProblem ()).best, (initAnnealSt trivProblem ()).scores) ∧
    trivProblem.evaluate (initAnnealSt trivProblem ()).best =
      (initAnnealSt trivProblem ()).bestScore ∧
    (initAnnealSt trivProblem ()).bestScore ∈ (initAnnealSt trivProblem ()).scores ∧
    ∀ x ∈ (initAnnealSt trivProblem ()).scores,
      x ≤ (initAnnealSt trivProblem ()).bestScore :=
  (anneal_asymmetric_return trivProblem (fun _ => 0) (fun _ => false) () 0 0 0 1 1
    (initAnnealSt trivProblem ()) false rfl).2 rfl

theorem anneal_some_trace_head {σ : Type} (P : SearchProblem σ) (pick : Nat → Nat)
    (accept : Nat → Bool) (initial_state : σ)
    (initial_temp cooling_rate min_temp : ℚ) (steps_per_temp fuel : Nat)
    (fs : σ) (tr : List Int)
    (h : anneal P pick accept initial_state initial_temp cooling_rate min_temp
      steps_per_temp fuel = some (fs, tr)) :
    tr.head? = some (P.evaluate initial_state) := by
  rw [anneal] at h
  cases hr : annealRun P pick accept initial_state initial_temp cooling_rate
      min_temp steps_per_temp fuel with
  | none => rw [hr] at h; exact absurd h (by simp)
  | some r =>
    rw [hr] at h
    obtain ⟨st, b⟩ := r
    obtain ⟨_, _, t, ht⟩ := annealOuter_spec P pick accept cooling_rate min_temp
      steps_per_temp fuel initial_temp (initAnnealSt P initial_state) st b hr
    have htr : tr = st.scores := by
      rw [Option.map_some'] at h
      by_cases hb : b = true
      · rw [if_pos hb] at h
        injection h with h'
        injection h' with h1 h2
        exact h2.symm
      · rw [if_neg hb] at h
        injection h with h'
        injection h' with h1 h2
        exact h2.symm
    rw [htr, ht]
    simp [initAnnealSt]

theorem randomRestartAnnealAux_trace {σ : Type} (P : SearchProblem σ)
    (picks : Nat → Nat → Nat) (accepts : Nat → Nat → Bool) (gen : Nat → σ)
    (initial_temp cooling_rate min_temp : ℚ) (steps_per_temp fuel : Nat) :
    ∀ (n k : Nat) (init best_state : σ) (best_score : Int)
      (all_scores : List Int) (fs : σ) (tr : List Int),
      randomRestartAnnealAux P picks accepts gen initial_temp cooling_rate
        min_temp steps_per_temp fuel n k init best_state best_score all_scores =
        some (fs, tr) →
      ∃ t, tr = all_scores ++ t := by
  intro n
  induction n with
  | zero =>
    intro k init bs bsc all fs tr h
    rw [randomRestartAnnealAux] at h
    simp only [Option.some.injEq, Prod.mk.injEq] at h
    exact ⟨[], by simp [h.2.symm]⟩
  | succ n ih =>
    intro k init bs bsc all fs tr h
    rw [randomRestartAnnealAux] at h
    cases ha : anneal P (picks k) (accepts k) init initial_temp cooling_rate
        min_temp steps_per_temp fuel with
    | none => rw [ha] at h; exact absurd h (by simp)
    | some r =>
      rw [ha] at h
      simp only at h
      by_cases hg : P.is_goal r.1
      · rw [if_pos hg] at h
        simp only [Option.some.injEq, Prod.mk.injEq] at h
        exact ⟨r.2, h.2.symm⟩
      · rw [if_neg hg] at h
        obtain ⟨t, ht⟩ := ih _ _ _ _ _ _ _ h
        exact ⟨r.2 ++ t, by rw [ht, List.append_assoc]⟩

/-- C6 (amended): each algorithm entry point returns a pair whose score
trace is non-empty with the initial state's score first; for `anneal` and
`random_restart_anneal` this is stated for runs the fuel completes, and for
`random_restart_anneal` it additionally requires `num_restarts ≥ 1` (with
`num_restarts = 0` the source returns an empty trace). -/
theorem entry_points_trace_head {σ : Type} (P : SearchProblem σ)
    (shuffle : Nat → List σ → List σ) (gen : Nat → σ)
    (pick : Nat → Nat) (accept : Nat → Bool)
    (picks : Nat → Nat → Nat) (accepts : Nat → Nat → Bool) (gen2 : Nat → σ)
    (initial_state : σ) (max_steps max_restarts num_restarts : Nat)
    (initial_temp cooling_rate min_temp : ℚ) (steps_per_temp fuel : Nat)
    (fs : σ) (tr : List Int) (fs2 : σ) (tr2 : List Int)
    (h1 : anneal P pick accept initial_state initial_temp cooling_rate min_temp
      steps_per_temp fuel = some (fs, tr))
    (h2 : random_restart_anneal P picks accepts gen2 initial_state num_restarts
      initial_temp cooling_rate min_temp steps_per_temp fuel = some (fs2, tr2))
    (h3 : 1 ≤ num_restarts) :
    (steepest_ascent P initial_state max_steps).2.head? =
      some (P.evaluate initial_state) ∧
    (first_choice P shuffle initial_state max_steps).2.head? =
      some (P.evaluate initial_state) ∧
    (random_restart P gen initial_state max_restarts).2.head? =
      some (P.evaluate initial_state) ∧
    tr.head? = some (P.evaluate initial_state) ∧
    tr2.head? = some (P.evaluate initial_state) := by
  refine ⟨?_, ?_, ?_, ?_, ?_⟩
  · obtain ⟨t, ht, _⟩ := steepestAscentAux_trace P max_steps initial_state
      [P.evaluate initial_state] (by simp) (by simp) (List.chain'_singleton _)
    rw [steepest_ascent, ht]
    simp
  · obtain ⟨t, ht, _⟩ := firstChoiceAux_trace P shuffle max_steps 0 initial_state
      [P.evaluate initial_state] (by simp) (by simp) (List.chain'_singleton _)
    rw [first_choice, ht]
    simp
  · rw [random_restart, randomRestartAux_trace]
    simp
  · exact anneal_some_trace_head P pick accept initial_state initial_temp
      cooling_rate min_temp steps_per_temp fuel fs tr h1
  · obtain ⟨m, rfl⟩ : ∃ m, num_restarts = m + 1 := ⟨num_restarts - 1, by omega⟩
    rw [random_restart_anneal, randomRestartAnnealAux] at h2
    cases ha : anneal P (picks 0) (accepts 0) initial_state initial_temp
        cooling_rate min_temp steps_per_temp fuel with
    | none => rw [ha] at h2; exact absurd h2 (by simp)
    | some r =>
      rw [ha] at h2
      simp only at h2
      obtain ⟨c, sc⟩ := r
      have hsc : sc.head? = some (P.evaluate initial_state) :=
        anneal_some_trace_head P (picks 0) (accepts 0) initial_state initial_temp
          cooling_rate min_temp steps_per_temp fuel c sc ha
      have htr : ∃ t, tr2 = sc ++ t := by
        by_cases hg : P.is_goal c
        · rw [if_pos hg] at h2
          simp only [Option.some.injEq, Prod.mk.injEq] at h2
          exact ⟨[], by simp [h2.2.symm]⟩
        · rw [if_neg hg] at h2
          obtain ⟨t, ht⟩ := randomRestartAnnealAux_trace P picks accepts gen2
            initial_temp cooling_rate min_temp steps_per_temp fuel m 1 (gen2 0)
            _ _ _ fs2 tr2 h2
          simp only [List.nil_append] at ht
          exact ⟨t, ht⟩
      obtain ⟨t, ht⟩ := htr
      cases sc with
      | nil => exact absurd hsc (by simp)
      | cons a l =>
        simp only [List.head?_cons, Option.some.injEq] at hsc
        rw [ht]
        simp [hsc]

theorem entry_points_trace_head_witness :
    (steepest_ascent trivProblem () 5).2.head? = some (trivProblem.evaluate ()) ∧
    (first_choice trivProblem (fun _ l => l) () 5).2.head? =
      some (trivProblem.evaluate ()) ∧
    (random_restart trivProblem (fun _ => ()) () 5).2.head? =
      some (trivProblem.evaluate ()) ∧
    ([(0 : Int)] : List Int).head? = some (trivProblem.evaluate ()) ∧
    ([(0 : Int)] : List Int).head? = some (trivProblem.evaluate ()) :=
  entry_points_trace_head trivProblem (fun _ l => l) (fun _ => ())
    (fun _ => 0) (fun _ => false) (fun _ _ => 0) (fun _ _ => false) (fun _ => ())
    () 5 5 1 0 0 0 1 1 () [(0 : Int)] () [(0 : Int)] rfl rfl (by decide)

/-- C6 (counterexample): with `num_restarts = 0`, `random_restart_anneal`
returns an empty score trace, so the trace is not a non-empty sequence
starting with the initial state's score. -/
theorem random_restart_anneal_empty_trace_cex :
    random_restart_anneal trivProblem (fun _ _ => 0) (fun _ _ => false)
        (fun _ => ()) () 0 0 0 0 1 1 = some ((), []) ∧
    ([] : List Int).head? ≠ some (trivProblem.evaluate ()) := by
  exact ⟨rfl, by decide⟩

/-- C7: the tile-puzzle and queens evaluation functions never exceed 100,
and each fixture's `is_goal` holds exactly when its `evaluate` equals the
optimum constant 100. -/
theorem evaluate_bounded_and_goal_iff :
    (∀ board goal : List (List Int), epEvaluate board goal ≤ 100 ∧
      (epIsGoal board goal = true ↔ epEvaluate board goal = 100)) ∧
    (∀ s : QueenState, s.evaluate ≤ 100 ∧
      (s.is_goal = true ↔ s.evaluate = 100)) := by
  constructor
  · intro board goal
    constructor
    · rw [epEvaluate]
      omega
    · rw [epIsGoal]
      exact beq_iff_eq
  · intro s
    constructor
    · rw [QueenState.evaluate]
      omega
    · rw [QueenState.is_goal]
      exact beq_iff_eq

theorem replicate_getD_neg_one (n i : Nat) :
    (List.replicate n (-1 : Int)).getD i (-1) = -1 := by
  rw [List.getD_eq_getElem?_getD, List.getElem?_replicate]
  split <;> rfl

theorem queen_init_conflicts (N : Nat) :
    (QueenState.init N).conflicts = N * (N - 1) / 2 := by
  rw [QueenState.conflicts]
  have hall : ∀ i ∈ Finset.range N,
      ((Finset.Ico (i + 1) ((QueenState.init N).size)).filter (fun j =>
        (QueenState.init N).queen_cols.getD i (-1) =
            (QueenState.init N).queen_cols.getD j (-1) ∨
          ((i : Int) - j).natAbs =
            ((QueenState.init N).queen_cols.getD i (-1) -
              (QueenState.init N).queen_cols.getD j (-1)).natAbs)).card =
      N - 1 - i := by
    intro i _
    have hfilter : ∀ j ∈ Finset.Ico (i + 1) ((QueenState.init N).size),
        (QueenState.init N).queen_cols.getD i (-1) =
            (QueenState.init N).queen_cols.getD j (-1) ∨
          ((i : Int) - j).natAbs =
            ((QueenState.init N).queen_cols.getD i (-1) -
              (QueenState.init N).queen_cols.getD j (-1)).natAbs := by
      intro j _
      left
      simp [QueenState.init, replicate_getD_neg_one]
    rw [Finset.filter_true_of_mem hfilter]
    simp only [QueenState.init, Nat.card_Ico]
    omega
  rw [show (QueenState.init N).size = N from rfl] at *
  rw [Finset.sum_congr rfl hall]
  rw [show (∑ i ∈ Finset.range N, (N - 1 - i)) = ∑ i ∈ Finset.range N, i from
    Finset.sum_range_reflect (fun i => i) N]
  exact Finset.sum_range_id N

/-- C10: the bare-constructor queens state (every row unset, column −1)
counts every row pair as a same-column conflict, so `evaluate` returns
`100 − N·(N−1)/2` (72 for N = 8) and `is_goal` is false for every N ≥ 2
even though no queen is placed. -/
theorem queen_init_unset_evaluate (N : Nat) :
    (QueenState.init N).evaluate = 100 - (N * (N - 1) / 2 : Nat) ∧
    (2 ≤ N → (QueenState.init N).is_goal = false) := by
  have hc := queen_init_conflicts N
  constructor
  · rw [QueenState.evaluate, hc]
  · intro hN
    have h2 : 2 ≤ N * (N - 1) := by
      calc 2 = 2 * 1 := by omega
      _ ≤ N * (N - 1) := Nat.mul_le_mul (by omega) (by omega)
    have h1 : 1 ≤ N * (N - 1) / 2 := by omega
    rw [QueenState.is_goal]
    rw [beq_eq_false_iff_ne]
    rw [QueenState.evaluate, hc]
    omega

theorem queen_init_unset_evaluate_witness :
    (QueenState.init 8).evaluate = 72 ∧ (QueenState.init 8).is_goal = false := by
  have h := queen_init_unset_evaluate 8
  refine ⟨?_, h.2 (by omega)⟩
  rw [h.1]
  decide

theorem range_filter_ne_length (N : Nat) (c : Int) (h0 : 0 ≤ c) (h1 : c < (N : Int)) :
    ((List.range N).filter (fun (m : Nat) => ((m : Int) ≠ c))).length = N - 1 := by
  induction N with
  | zero => omega
  | succ N ih =>
    rw [List.range_succ, List.filter_append, List.length_append]
    by_cases hc : c = (N : Int)
    · have hfull : (List.range N).filter (fun (m : Nat) => ((m : Int) ≠ c)) = List.range N := by
        refine List.filter_eq_self.2 ?_
        intro a ha
        rw [List.mem_range] at ha
        subst hc
        simp only [ne_eq, decide_eq_true_eq]
        omega
      have hlast : ([N].filter (fun (m : Nat) => ((m : Int) ≠ c))).length = 0 := by
        subst hc
        simp
      rw [hfull, hlast, List.length_range]
      omega
    · have hcN : c < (N : Int) := by
        have : c ≠ (N : Int) := hc
        omega
      by_cases hN0 : N = 0
      · subst hN0
        omega
      · have hih := ih hcN
        have hlast : ([N].filter (fun (m : Nat) => ((m : Int) ≠ c))).length = 1 := by
          simp only [List.filter, ne_eq, decide_not]
          rw [show (decide ((N : Int) = c)) = false from by
            simp only [decide_eq_false_iff_not]
            omega]
          rfl
        rw [hih, hlast]
        omega

/-- C5 (amended): for a queens state of size N whose every row holds a
valid column (0 ≤ col < N), `get_neighbors` returns
exactly N·(N−1) states, each obtained by moving exactly one row's queen to
a different column while holding all other rows' columns fixed.  (The
membership half holds for every state; the count requires every column to
be in range, which the bare constructor's unset −1 columns violate.) -/
theorem queen_get_neighbors_spec (s : QueenState)
    (hcols : ∀ i ∈ List.range s.size, 0 ≤ s.queen_cols.getD i (-1) ∧
      s.queen_cols.getD i (-1) < (s.size : Int)) :
    s.get_neighbors.length = s.size * (s.size - 1) ∧
    ∀ t ∈ s.get_neighbors, ∃ row col : Nat, row < s.size ∧ col < s.size ∧
      (col : Int) ≠ s.queen_cols.getD row (-1) ∧
      t.size = s.size ∧ t.queen_cols = s.queen_cols.set row (col : Int) := by
  constructor
  · rw [QueenState.get_neighbors, List.length_flatMap]
    simp only [Function.comp_def]
    have hmap : (List.range s.size).map (fun row =>
        (((List.range s.size).filter
          (fun (new_col : Nat) => ((new_col : Int) ≠ s.queen_cols.getD row (-1)))).map
          (fun (new_col : Nat) =>
            ({ size := s.size,
               queen_cols := s.queen_cols.set row ((new_col : Nat) : Int) } :
              QueenState))).length) =
        (List.range s.size).map (fun _ => s.size - 1) := by
      refine List.map_congr_left ?_
      intro row hrow
      rw [List.length_map]
      exact range_filter_ne_length s.size (s.queen_cols.getD row (-1))
        (hcols row hrow).1 (hcols row hrow).2
    rw [hmap, List.map_const', List.length_range, List.sum_replicate, smul_eq_mul]
  · intro t ht
    rw [QueenState.get_neighbors] at ht
    simp only [List.mem_flatMap, List.mem_map, List.mem_filter, List.mem_range,
      ne_eq, decide_not, Bool.not_eq_eq_eq_not, Bool.not_true,
      decide_eq_false_iff_not] at ht
    obtain ⟨row, hrow, col, ⟨hcol, hne⟩, rfl⟩ := ht
    exact ⟨row, col, hrow, hcol, hne, rfl, rfl⟩

theorem queen_get_neighbors_spec_witness :
    ({ size := 2, queen_cols := [(0 : Int), 1] } : QueenState).get_neighbors.length =
        2 * (2 - 1) ∧
    ∀ t ∈ ({ size := 2, queen_cols := [(0 : Int), 1] } : QueenState).get_neighbors,
      ∃ row col : Nat, row < 2 ∧ col < 2 ∧
        (col : Int) ≠ ([(0 : Int), 1].getD row (-1)) ∧
        t.size = 2 ∧ t.queen_cols = [(0 : Int), 1].set row (col : Int) :=
  queen_get_neighbors_spec { size := 2, queen_cols := [(0 : Int), 1] } (by decide)

/-- C5 (counterexample): the bare-constructor queens state of size 2 has
both rows unset (column −1), so every one of the 2 columns differs from the
current one and `get_neighbors` returns 4 ≠ 2·(2−1) states. -/
theorem queen_get_neighbors_count_cex :
    ¬ ((QueenState.init 2).get_neighbors.length = 2 * (2 - 1)) := by
  decide

theorem getD_mem_of_lt {α : Type} (l : List α) (i : Nat) (d : α)
    (h : i < l.length) : l.getD i d ∈ l := by
  have heq : l.getD i d = l.get ⟨i, h⟩ := by
    rw [List.getD_eq_getElem?_getD, List.getElem?_eq_getElem h]
    rfl
  rw [heq]
  exact List.get_mem _ _ _

/-- C9: a 3×3 board with no blank cell is a construction-time failure
(`mk?` returns `none`, the embedded `ValueError`); an unknown direction or
an out-of-bounds slide on a constructed state is not an error but an absent
result (`move` returns `none`); and every neighbor produced by the puzzle
fixture comes from a move that succeeded, the `None` attempts having been
filtered out. -/
theorem ep_error_handling :
    (∀ board : List (List Int), board.length = 3 → (∀ r ∈ board, r.length = 3) →
      (∀ r ∈ board, ∀ x ∈ r, x ≠ 0) → EightPuzzleState.mk? board = none) ∧
    (∀ (s : EightPuzzleState) (d : String), dirDelta d = none →
      s.move d = none) ∧
    (∀ (s : EightPuzzleState) (d : String) (dx dy : Int),
      dirDelta d = some (dx, dy) →
      ¬ (0 ≤ (s.blank_pos.1 : Int) + dx ∧ (s.blank_pos.1 : Int) + dx < 3 ∧
         0 ≤ (s.blank_pos.2 : Int) + dy ∧ (s.blank_pos.2 : Int) + dy < 3) →
      s.move d = none) ∧
    (∀ (goal : List (List Int)) (s t : EightPuzzleState),
      t ∈ (epProblem goal).get_neighbors s →
      ∃ m ∈ s.get_possible_moves, s.move m = some t) := by
  refine ⟨?_, ?_, ?_, ?_⟩
  · intro board hlen hrows hnb
    rw [EightPuzzleState.mk?, Option.map_eq_none']
    rw [findBlank, List.findSome?_eq_none_iff]
    intro i hi
    rw [Option.map_eq_none']
    rw [List.find?_eq_none]
    intro j hj
    rw [List.mem_range] at hi hj
    have hi' : i < board.length := by omega
    have hrmem : board.getD i [] ∈ board := getD_mem_of_lt _ _ _ hi'
    have hrl : (board.getD i []).length = 3 := hrows _ hrmem
    have hj' : j < (board.getD i []).length := by omega
    have hcmem : (board.getD i []).getD j 1 ∈ board.getD i [] :=
      getD_mem_of_lt _ _ _ hj'
    have hne := hnb _ hrmem _ hcmem
    rw [Bool.not_eq_true, beq_eq_false_iff_ne]
    exact hne
  · intro s d hd
    simp [EightPuzzleState.move, hd]
  · intro s d dx dy hd hout
    simp only [EightPuzzleState.move, hd]
    rw [if_neg hout]
  · intro goal s t ht
    simp only [epProblem] at ht
    rw [List.mem_filterMap] at ht
    obtain ⟨m, hm, hmv⟩ := ht
    exact ⟨m, hm, hmv⟩

theorem ep_error_handling_witness :
    EightPuzzleState.mk? [[1, 2, 3], [4, 5, 6], [7, 8, 9]] = none ∧
    EightPuzzleState.move
      { board := [[0, 1, 2], [3, 4, 5], [6, 7, 8]], blank_pos := (0, 0) }
      ("x") = none ∧
    EightPuzzleState.move
      { board := [[0, 1, 2], [3, 4, 5], [6, 7, 8]], blank_pos := (0, 0) }
      dirUp = none ∧
    ∃ m ∈ ({ board := [[0, 1, 2], [3, 4, 5], [6, 7, 8]], blank_pos := (0, 0) } :
        EightPuzzleState).get_possible_moves,
      EightPuzzleState.move
        { board := [[0, 1, 2], [3, 4, 5], [6, 7, 8]], blank_pos := (0, 0) } m =
        some { board := [[3, 1, 2], [0, 4, 5], [6, 7, 8]], blank_pos := (1, 0) } :=
  ⟨ep_error_handling.1 [[1, 2, 3], [4, 5, 6], [7, 8, 9]] rfl (by decide) (by decide),
   ep_error_handling.2.1 _ ("x") (by decide),
   ep_error_handling.2.2.1 _ dirUp (-1) 0 (by decide) (by decide),
   ep_error_handling.2.2.2 [[9]] _ _ (by decide)⟩
